import Mathlib

/-!
Verification of the bounded double-ended iterators of `near-sdk`'s
`store::TreeMap` (source: `src/near-sdk/src/store/tree_map/iter.rs`).

The iterator machinery itself (`Keys`, `Iter`, `IterMut`, `Values`,
`ValuesMut`) is embedded directly from `iter.rs`.  The ordered index
`Tree<K>`, the value layer `LookupMap<K,V>` and the helper `expect` live in
`tree_map/mod.rs`, which is not among the available sources; they are
modelled from the spec (sections 3, 4.1, 4.2 and 7), as flagged on each
definition.  Rust's in-place mutation is rendered as explicit state
passing: each iterator method takes the cursor and returns the produced
item together with the updated cursor.  The `u32` field `length` is
rendered as `Nat`: the code only ever decrements it when it is nonzero
(or overwrites it with `0`), so no wrap-around can occur and `Nat`
subtraction agrees with the `u32` subtraction exactly.  A fatal abort
(`expect` on a missing value entry) is rendered as `Except.error ()`.
-/

namespace NearTreeMap

/-- Range bound, mirroring `std::ops::Bound` from the Rust source. -/
inductive Bound (K : Type) where
  | unbounded : Bound K
  | included (k : K) : Bound K
  | excluded (k : K) : Bound K
deriving DecidableEq

variable {K V : Type} [LinearOrder K]

/-- Smallest element of a list of keys, `none` when the list is empty. -/
def keyMin : List K → Option K
  | [] => none
  | k :: ks =>
    match keyMin ks with
    | none => some k
    | some m => some (if k ≤ m then k else m)

/-- Largest element of a list of keys, `none` when the list is empty. -/
def keyMax : List K → Option K
  | [] => none
  | k :: ks =>
    match keyMax ks with
    | none => some k
    | some m => some (if m ≤ k then k else m)

/-- Modelled from the spec: `Tree<K>` of `tree_map/mod.rs` (not among the
sources).  Spec section 3: the tree holds a set of distinct keys in a
balanced BST whose node store has one node per live key, so
`tree.nodes.len()` is the number of keys.  The navigation contract of
section 4.2 depends only on the key set, so the tree is modelled by its
list of keys (distinctness is a hypothesis where a claim needs it). -/
structure Tree (K : Type) where
  keys : List K
deriving DecidableEq

/-- Modelled from the spec, section 4.2: `min()` is the globally smallest
key, or none if empty. -/
def Tree.min (t : Tree K) : Option K := keyMin t.keys

/-- Modelled from the spec, section 4.2: `max()` is the globally largest
key, or none if empty. -/
def Tree.max (t : Tree K) : Option K := keyMax t.keys

/-- Modelled from the spec, section 4.2: `ceil_key(k)` is the smallest key
`≥ k`, or none. -/
def Tree.ceil_key (t : Tree K) (b : K) : Option K :=
  keyMin (t.keys.filter (fun k => decide (b ≤ k)))

/-- Modelled from the spec, section 4.2: `higher(k)` is the smallest key
strictly `> k`, or none. -/
def Tree.higher (t : Tree K) (b : K) : Option K :=
  keyMin (t.keys.filter (fun k => decide (b < k)))

/-- Modelled from the spec, section 4.2: `floor_key(k)` is the largest key
`≤ k`, or none. -/
def Tree.floor_key (t : Tree K) (b : K) : Option K :=
  keyMax (t.keys.filter (fun k => decide (k ≤ b)))

/-- Modelled from the spec, section 4.2: `lower(k)` is the largest key
strictly `< k`, or none. -/
def Tree.lower (t : Tree K) (b : K) : Option K :=
  keyMax (t.keys.filter (fun k => decide (k < b)))

/-- Modelled from the spec, section 3: `tree.nodes.len()`, the count of
live nodes, i.e. of keys. -/
def Tree.nodesLen (t : Tree K) : Nat := t.keys.length

/-- Cursor state of the `Keys` iterator (iter.rs lines 223-231): a shared
view of the tree, a `length` counter and the two current range bounds. -/
structure Keys (K : Type) where
  tree : Tree K
  length : Nat
  min : Bound K
  max : Bound K
deriving DecidableEq

/-- Constructor `Keys::new` (iter.rs lines 237-240): the counter starts at
`tree.nodes.len()` and the bounds are taken from the argument pair. -/
def Keys.new (tree : Tree K) (bounds : Bound K × Bound K) : Keys K :=
  { tree := tree, length := tree.nodesLen, min := bounds.1, max := bounds.2 }

/-- Constructor `Keys::new_unbounded` (iter.rs lines 242-244). -/
def Keys.new_unbounded (map : Tree K) : Keys K :=
  Keys.new map (Bound.unbounded, Bound.unbounded)

/-- Helper `Keys::next_asc` (iter.rs lines 246-255): resolve the next
ascending candidate from the `min` bound alone. -/
def Keys.next_asc (it : Keys K) : Option K :=
  match it.min with
  | Bound.unbounded => it.tree.min
  | Bound.included b => it.tree.ceil_key b
  | Bound.excluded b => it.tree.higher b

/-- Helper `Keys::next_desc` (iter.rs lines 257-266): resolve the next
descending candidate from the `max` bound alone. -/
def Keys.next_desc (it : Keys K) : Option K :=
  match it.max with
  | Bound.unbounded => it.tree.max
  | Bound.included b => it.tree.floor_key b
  | Bound.excluded b => it.tree.lower b

/-- Method `Keys::next` (iter.rs lines 276-296), as a state transformer:
returns the yielded item together with the updated cursor. -/
def Keys.next (it : Keys K) : Option K × Keys K :=
  if it.length = 0 then
    (none, it)
  else
    match it.next_asc with
    | some bound =>
        (some bound, { it with min := Bound.excluded bound, length := it.length - 1 })
    | none => (none, { it with length := 0 })

/-- Method `Keys::next_back` (iter.rs lines 321-341), as a state
transformer. -/
def Keys.next_back (it : Keys K) : Option K × Keys K :=
  if it.length = 0 then
    (none, it)
  else
    match it.next_desc with
    | some bound =>
        (some bound, { it with max := Bound.excluded bound, length := it.length - 1 })
    | none => (none, { it with length := 0 })

/-- Method `Keys::size_hint` (iter.rs lines 298-301). -/
def Keys.size_hint (it : Keys K) : Nat × Option Nat := (it.length, some it.length)

/-- Method `Keys::count` (iter.rs lines 303-305). -/
def Keys.count (it : Keys K) : Nat := it.length

/-- Default `Iterator::nth` for `Keys` (the source does not override it):
repeatedly call `next`, discarding `n` items, returning early as soon as
`next` produces nothing. -/
def Keys.nth (it : Keys K) : Nat → Option K × Keys K
  | 0 => it.next
  | n + 1 =>
    match it.next with
    | (some _, it2) => it2.nth n
    | (none, it2) => (none, it2)

/-- Default `DoubleEndedIterator::nth_back` for `Keys` (the source does
not override it). -/
def Keys.nth_back (it : Keys K) : Nat → Option K × Keys K
  | 0 => it.next_back
  | n + 1 =>
    match it.next_back with
    | (some _, it2) => it2.nth_back n
    | (none, it2) => (none, it2)

/-- Direction of one cursor step: a `next()` call or a `next_back()`
call. -/
inductive Dir where
  | fwd
  | bwd
deriving DecidableEq

/-- One cursor step in a given direction. -/
def Keys.step (it : Keys K) : Dir → Option K × Keys K
  | Dir.fwd => it.next
  | Dir.bwd => it.next_back

/-- Run a sequence of `next()` / `next_back()` calls against the cursor,
collecting the yielded keys in call order. -/
def Keys.run (it : Keys K) : List Dir → List K × Keys K
  | [] => ([], it)
  | d :: ds =>
    let p := it.step d
    let q := (p.2).run ds
    (p.1.toList ++ q.1, q.2)

/-- Keys admitted by a lower bound. -/
def Bound.admitsAbove : Bound K → K → Prop
  | Bound.unbounded, _ => True
  | Bound.included b, x => b ≤ x
  | Bound.excluded b, x => b < x

/-- Keys admitted by an upper bound. -/
def Bound.admitsBelow : Bound K → K → Prop
  | Bound.unbounded, _ => True
  | Bound.included b, x => x ≤ b
  | Bound.excluded b, x => x < b

instance (b : Bound K) (x : K) : Decidable (b.admitsAbove x) :=
  match b with
  | Bound.unbounded => Decidable.isTrue trivial
  | Bound.included c => inferInstanceAs (Decidable (c ≤ x))
  | Bound.excluded c => inferInstanceAs (Decidable (c < x))

instance (b : Bound K) (x : K) : Decidable (b.admitsBelow x) :=
  match b with
  | Bound.unbounded => Decidable.isTrue trivial
  | Bound.included c => inferInstanceAs (Decidable (x ≤ c))
  | Bound.excluded c => inferInstanceAs (Decidable (x < c))

/-- Keys of the tree that the cursor's current bounds still admit. -/
def Keys.remaining (it : Keys K) : List K :=
  it.tree.keys.filter (fun k => decide (it.min.admitsAbove k) && decide (it.max.admitsBelow k))

/-- Cursor coherence: the tree's keys are distinct and the counter equals
the number of keys the current bounds admit.  `Keys::new_unbounded`
establishes it, and every step preserves it. -/
def Keys.Inv (it : Keys K) : Prop :=
  it.tree.keys.Nodup ∧ it.length = it.remaining.length

/-- Modelled from the spec: `LookupMap<K,V>` of `tree_map/mod.rs` (not
among the sources).  Spec section 4.1: an unordered associative layer;
only `get` is consumed by the iterators, and `get_mut` addresses the same
single storage slot per key, so one total lookup function models both. -/
structure LookupMap (K V : Type) where
  get : K → Option V

/-- Modelled from the spec: `TreeMap<K,V>` of `tree_map/mod.rs` (not among
the sources).  Spec section 3: the ordered index together with the value
layer. -/
structure TreeMap (K V : Type) where
  tree : Tree K
  values : LookupMap K V

/-- Modelled from the spec: helper `expect` of `tree_map/mod.rs` (not
among the sources).  Spec section 7: a missing or malformed persisted
entry is fatal; the operation aborts instead of skipping.  The abort is
rendered as `Except.error ()`. -/
def expect : Option V → Except Unit V
  | some v => Except.ok v
  | none => Except.error ()

/-- Struct `Iter` (iter.rs lines 40-48): a `Keys` cursor plus a shared
reference to the value layer. -/
structure Iter (K V : Type) where
  keys : Keys K
  values : LookupMap K V

/-- Constructor `Iter::new` (iter.rs lines 56-58). -/
def Iter.new (map : TreeMap K V) : Iter K V :=
  { keys := Keys.new_unbounded map.tree, values := map.values }

/-- Method `Iter::nth` (iter.rs lines 73-78): advance the key cursor, then
look the produced key up in the value layer through `expect`, aborting
fatally when the entry is absent. -/
def Iter.nth (it : Iter K V) (n : Nat) : Except Unit (Option (K × V)) × Iter K V :=
  let p := it.keys.nth n
  let it2 : Iter K V := { it with keys := p.2 }
  match p.1 with
  | none => (Except.ok none, it2)
  | some k =>
    match expect (it.values.get k) with
    | Except.error e => (Except.error e, it2)
    | Except.ok v => (Except.ok (some (k, v)), it2)

/-- Method `Iter::next` (iter.rs lines 69-71): delegates to `nth(0)`. -/
def Iter.next (it : Iter K V) : Except Unit (Option (K × V)) × Iter K V :=
  it.nth 0

/-- Method `Iter::nth_back` (iter.rs lines 114-119). -/
def Iter.nth_back (it : Iter K V) (n : Nat) : Except Unit (Option (K × V)) × Iter K V :=
  let p := it.keys.nth_back n
  let it2 : Iter K V := { it with keys := p.2 }
  match p.1 with
  | none => (Except.ok none, it2)
  | some k =>
    match expect (it.values.get k) with
    | Except.error e => (Except.error e, it2)
    | Except.ok v => (Except.ok (some (k, v)), it2)

/-- Method `Iter::next_back` (iter.rs lines 110-112): `nth_back(0)`. -/
def Iter.next_back (it : Iter K V) : Except Unit (Option (K × V)) × Iter K V :=
  it.nth_back 0

/-- Method `Iter::size_hint` (iter.rs lines 80-82). -/
def Iter.size_hint (it : Iter K V) : Nat × Option Nat := it.keys.size_hint

/-- Method `Iter::count` (iter.rs lines 84-86). -/
def Iter.count (it : Iter K V) : Nat := it.keys.count

/-- Struct `IterMut` (iter.rs lines 125-135): a `Keys` cursor plus an
exclusive reference to the value layer. -/
structure IterMut (K V : Type) where
  keys : Keys K
  values : LookupMap K V

/-- Constructor `IterMut::new` (iter.rs lines 143-145): always over
unbounded bounds. -/
def IterMut.new (map : TreeMap K V) : IterMut K V :=
  { keys := Keys.new_unbounded map.tree, values := map.values }

/-- Method `IterMut::get_entry_mut` (iter.rs lines 146-160): one `get_mut`
lookup of the key (addressing the same slot `get` does) through `expect`,
fatal when absent; the unsafe lifetime extension is the identity in this
functional model. -/
def IterMut.get_entry_mut (it : IterMut K V) (k : K) : Except Unit (K × V) :=
  match expect (it.values.get k) with
  | Except.error e => Except.error e
  | Except.ok v => Except.ok (k, v)

/-- Method `IterMut::nth` (iter.rs lines 175-178). -/
def IterMut.nth (it : IterMut K V) (n : Nat) : Except Unit (Option (K × V)) × IterMut K V :=
  let p := it.keys.nth n
  let it2 : IterMut K V := { it with keys := p.2 }
  match p.1 with
  | none => (Except.ok none, it2)
  | some k =>
    match it.get_entry_mut k with
    | Except.error e => (Except.error e, it2)
    | Except.ok kv => (Except.ok (some kv), it2)

/-- Method `IterMut::next` (iter.rs lines 171-173): `nth(0)`. -/
def IterMut.next (it : IterMut K V) : Except Unit (Option (K × V)) × IterMut K V :=
  it.nth 0

/-- Method `IterMut::nth_back` (iter.rs lines 214-217). -/
def IterMut.nth_back (it : IterMut K V) (n : Nat) : Except Unit (Option (K × V)) × IterMut K V :=
  let p := it.keys.nth_back n
  let it2 : IterMut K V := { it with keys := p.2 }
  match p.1 with
  | none => (Except.ok none, it2)
  | some k =>
    match it.get_entry_mut k with
    | Except.error e => (Except.error e, it2)
    | Except.ok kv => (Except.ok (some kv), it2)

/-- Method `IterMut::next_back` (iter.rs lines 210-212): `nth_back(0)`. -/
def IterMut.next_back (it : IterMut K V) : Except Unit (Option (K × V)) × IterMut K V :=
  it.nth_back 0

/-- Struct `Values` (iter.rs lines 347-354): wraps an `Iter`. -/
structure Values (K V : Type) where
  inner : Iter K V

/-- Constructor `Values::new` (iter.rs lines 362-364). -/
def Values.new (map : TreeMap K V) : Values K V :=
  { inner := Iter.new map }

/-- Method `Values::nth` (iter.rs lines 379-381): forward to the inner
`Iter`, keeping only the value component. -/
def Values.nth (vs : Values K V) (n : Nat) : Except Unit (Option V) × Values K V :=
  let p := vs.inner.nth n
  (p.1.map (Option.map Prod.snd), { inner := p.2 })

/-- Method `Values::next` (iter.rs lines 375-377): `nth(0)`. -/
def Values.next (vs : Values K V) : Except Unit (Option V) × Values K V :=
  vs.nth 0

/-- Method `Values::nth_back` (iter.rs lines 417-419). -/
def Values.nth_back (vs : Values K V) (n : Nat) : Except Unit (Option V) × Values K V :=
  let p := vs.inner.nth_back n
  (p.1.map (Option.map Prod.snd), { inner := p.2 })

/-- Method `Values::next_back` (iter.rs lines 413-415): `nth_back(0)`. -/
def Values.next_back (vs : Values K V) : Except Unit (Option V) × Values K V :=
  vs.nth_back 0

/-- Methods `Values::size_hint` / `Values::count` (iter.rs lines
383-389). -/
def Values.size_hint (vs : Values K V) : Nat × Option Nat := vs.inner.size_hint

/-- Method `Values::count` (iter.rs lines 387-389). -/
def Values.count (vs : Values K V) : Nat := vs.inner.count

/-- Struct `ValuesMut` (iter.rs lines 425-432): wraps an `IterMut`. -/
structure ValuesMut (K V : Type) where
  inner : IterMut K V

/-- Constructor `ValuesMut::new` (iter.rs lines 440-442). -/
def ValuesMut.new (map : TreeMap K V) : ValuesMut K V :=
  { inner := IterMut.new map }

/-- Method `ValuesMut::nth` (iter.rs lines 457-459): forward to the inner
`IterMut`, keeping only the value component. -/
def ValuesMut.nth (vs : ValuesMut K V) (n : Nat) : Except Unit (Option V) × ValuesMut K V :=
  let p := vs.inner.nth n
  (p.1.map (Option.map Prod.snd), { inner := p.2 })

/-- Method `ValuesMut::next` (iter.rs lines 453-455): `nth(0)`. -/
def ValuesMut.next (vs : ValuesMut K V) : Except Unit (Option V) × ValuesMut K V :=
  vs.nth 0

/-- Method `ValuesMut::nth_back` (iter.rs lines 495-497). -/
def ValuesMut.nth_back (vs : ValuesMut K V) (n : Nat) : Except Unit (Option V) × ValuesMut K V :=
  let p := vs.inner.nth_back n
  (p.1.map (Option.map Prod.snd), { inner := p.2 })

/-- Method `ValuesMut::next_back` (iter.rs lines 491-493): `nth_back(0)`. -/
def ValuesMut.next_back (vs : ValuesMut K V) : Except Unit (Option V) × ValuesMut K V :=
  vs.nth_back 0

/-- Tree over the concrete key set used by the spec's iteration example. -/
def tree13579 : Tree Nat := ⟨[1, 3, 5, 7, 9]⟩

/-- Cursor over the range `(Included(3), Excluded(9))` of that tree. -/
def cursor39 : Keys Nat := Keys.new tree13579 (Bound.included 3, Bound.excluded 9)

/-- Cursor whose `next_asc` finds no candidate while `length` is nonzero:
a single-key tree with the key already excluded by the `min` bound. -/
def cursorStuck : Keys Nat :=
  { tree := ⟨[1]⟩, length := 1, min := Bound.excluded 1, max := Bound.unbounded }

/-- Iterator over a one-key tree whose value entry is missing. -/
def iterMissing : Iter Nat Nat :=
  { keys := Keys.new_unbounded ⟨[1]⟩, values := ⟨fun _ => none⟩ }

/-- Iterator over a one-key tree whose value entry is present. -/
def iterPresent : Iter Nat Nat :=
  { keys := Keys.new_unbounded ⟨[1]⟩, values := ⟨fun k => if k = 1 then some 10 else none⟩ }

end NearTreeMap

namespace NearTreeMap

variable {K V : Type} [LinearOrder K]

theorem keyMin_eq_none {l : List K} (h : keyMin l = none) : l = [] := by
  cases l with
  | nil => rfl
  | cons k ks =>
    rw [keyMin] at h
    cases hks : keyMin ks <;> simp [hks] at h

theorem keyMax_eq_none {l : List K} (h : keyMax l = none) : l = [] := by
  cases l with
  | nil => rfl
  | cons k ks =>
    rw [keyMax] at h
    cases hks : keyMax ks <;> simp [hks] at h

theorem keyMin_mem : ∀ {l : List K} {m : K}, keyMin l = some m → m ∈ l := by
  intro l
  induction l with
  | nil => intro m h; simp [keyMin] at h
  | cons k ks ih =>
    intro m h
    rw [keyMin] at h
    cases hks : keyMin ks with
    | none =>
      rw [hks] at h
      simp at h
      simp [h]
    | some mm =>
      rw [hks] at h
      simp at h
      by_cases hc : k ≤ mm
      · rw [if_pos hc] at h
        simp [h]
      · rw [if_neg hc] at h
        subst h
        exact List.mem_cons_of_mem _ (ih hks)

theorem keyMin_le : ∀ {l : List K} {m : K}, keyMin l = some m → ∀ x ∈ l, m ≤ x := by
  intro l
  induction l with
  | nil => intro m h x hx; simp at hx
  | cons k ks ih =>
    intro m h x hx
    rw [keyMin] at h
    cases hks : keyMin ks with
    | none =>
      rw [hks] at h
      simp at h
      subst h
      have hke := keyMin_eq_none hks
      subst hke
      rcases List.mem_cons.mp hx with h1 | h1
      · exact le_of_eq h1.symm
      · simp at h1
    | some mm =>
      rw [hks] at h
      simp at h
      rcases List.mem_cons.mp hx with h1 | h1
      · rw [h1]
        by_cases hc : k ≤ mm
        · rw [if_pos hc] at h
          exact le_of_eq h.symm
        · rw [if_neg hc] at h
          subst h
          exact le_of_not_le hc
      · have hmm := ih hks x h1
        by_cases hc : k ≤ mm
        · rw [if_pos hc] at h
          subst h
          exact le_trans hc hmm
        · rw [if_neg hc] at h
          subst h
          exact hmm

theorem keyMax_mem : ∀ {l : List K} {m : K}, keyMax l = some m → m ∈ l := by
  intro l
  induction l with
  | nil => intro m h; simp [keyMax] at h
  | cons k ks ih =>
    intro m h
    rw [keyMax] at h
    cases hks : keyMax ks with
    | none =>
      rw [hks] at h
      simp at h
      simp [h]
    | some mm =>
      rw [hks] at h
      simp at h
      by_cases hc : mm ≤ k
      · rw [if_pos hc] at h
        simp [h]
      · rw [if_neg hc] at h
        subst h
        exact List.mem_cons_of_mem _ (ih hks)

theorem keyMax_ge : ∀ {l : List K} {m : K}, keyMax l = some m → ∀ x ∈ l, x ≤ m := by
  intro l
  induction l with
  | nil => intro m h x hx; simp at hx
  | cons k ks ih =>
    intro m h x hx
    rw [keyMax] at h
    cases hks : keyMax ks with
    | none =>
      rw [hks] at h
      simp at h
      subst h
      have hke := keyMax_eq_none hks
      subst hke
      rcases List.mem_cons.mp hx with h1 | h1
      · exact le_of_eq h1
      · simp at h1
    | some mm =>
      rw [hks] at h
      simp at h
      rcases List.mem_cons.mp hx with h1 | h1
      · rw [h1]
        by_cases hc : mm ≤ k
        · rw [if_pos hc] at h
          exact le_of_eq h
        · rw [if_neg hc] at h
          subst h
          exact le_of_not_le hc
      · have hmm := ih hks x h1
        by_cases hc : mm ≤ k
        · rw [if_pos hc] at h
          subst h
          exact le_trans hmm hc
        · rw [if_neg hc] at h
          subst h
          exact hmm

end NearTreeMap

namespace NearTreeMap

variable {K V : Type} [LinearOrder K]

theorem admitsAbove_mono {b : Bound K} {x y : K} (h : b.admitsAbove x) (hxy : x ≤ y) :
    b.admitsAbove y := by
  cases b with
  | unbounded => exact trivial
  | included c =>
    simp only [Bound.admitsAbove] at h ⊢
    exact le_trans h hxy
  | excluded c =>
    simp only [Bound.admitsAbove] at h ⊢
    exact lt_of_lt_of_le h hxy

theorem admitsBelow_mono {b : Bound K} {x y : K} (h : b.admitsBelow y) (hxy : x ≤ y) :
    b.admitsBelow x := by
  cases b with
  | unbounded => exact trivial
  | included c =>
    simp only [Bound.admitsBelow] at h ⊢
    exact le_trans hxy h
  | excluded c =>
    simp only [Bound.admitsBelow] at h ⊢
    exact lt_of_le_of_lt hxy h

theorem next_asc_spec {it : Keys K} {k : K} (h : it.next_asc = some k) :
    k ∈ it.tree.keys ∧ it.min.admitsAbove k ∧
      ∀ x ∈ it.tree.keys, it.min.admitsAbove x → k ≤ x := by
  cases hb : it.min with
  | unbounded =>
    simp only [Keys.next_asc, hb] at h
    exact ⟨keyMin_mem h, trivial, fun x hx _ => keyMin_le h x hx⟩
  | included b =>
    simp only [Keys.next_asc, hb, Tree.ceil_key] at h
    have hmem := keyMin_mem h
    rw [List.mem_filter] at hmem
    refine ⟨hmem.1, ?_, ?_⟩
    · simpa only [Bound.admitsAbove] using of_decide_eq_true hmem.2
    · intro x hx hax
      simp only [Bound.admitsAbove] at hax
      exact keyMin_le h x (List.mem_filter.mpr ⟨hx, decide_eq_true hax⟩)
  | excluded b =>
    simp only [Keys.next_asc, hb, Tree.higher] at h
    have hmem := keyMin_mem h
    rw [List.mem_filter] at hmem
    refine ⟨hmem.1, ?_, ?_⟩
    · simpa only [Bound.admitsAbove] using of_decide_eq_true hmem.2
    · intro x hx hax
      simp only [Bound.admitsAbove] at hax
      exact keyMin_le h x (List.mem_filter.mpr ⟨hx, decide_eq_true hax⟩)

theorem next_desc_spec {it : Keys K} {k : K} (h : it.next_desc = some k) :
    k ∈ it.tree.keys ∧ it.max.admitsBelow k ∧
      ∀ x ∈ it.tree.keys, it.max.admitsBelow x → x ≤ k := by
  cases hb : it.max with
  | unbounded =>
    simp only [Keys.next_desc, hb] at h
    exact ⟨keyMax_mem h, trivial, fun x hx _ => keyMax_ge h x hx⟩
  | included b =>
    simp only [Keys.next_desc, hb, Tree.floor_key] at h
    have hmem := keyMax_mem h
    rw [List.mem_filter] at hmem
    refine ⟨hmem.1, ?_, ?_⟩
    · simpa only [Bound.admitsBelow] using of_decide_eq_true hmem.2
    · intro x hx hax
      simp only [Bound.admitsBelow] at hax
      exact keyMax_ge h x (List.mem_filter.mpr ⟨hx, decide_eq_true hax⟩)
  | excluded b =>
    simp only [Keys.next_desc, hb, Tree.lower] at h
    have hmem := keyMax_mem h
    rw [List.mem_filter] at hmem
    refine ⟨hmem.1, ?_, ?_⟩
    · simpa only [Bound.admitsBelow] using of_decide_eq_true hmem.2
    · intro x hx hax
      simp only [Bound.admitsBelow] at hax
      exact keyMax_ge h x (List.mem_filter.mpr ⟨hx, decide_eq_true hax⟩)

theorem next_asc_eq_none {it : Keys K} (h : it.next_asc = none) :
    ∀ x ∈ it.tree.keys, ¬ it.min.admitsAbove x := by
  cases hb : it.min with
  | unbounded =>
    simp only [Keys.next_asc, hb, Tree.min] at h
    intro x hx
    rw [keyMin_eq_none h] at hx
    simp at hx
  | included b =>
    simp only [Keys.next_asc, hb, Tree.ceil_key] at h
    intro x hx hax
    simp only [Bound.admitsAbove] at hax
    have := keyMin_eq_none h
    rw [List.filter_eq_nil_iff] at this
    exact this x hx (decide_eq_true hax)
  | excluded b =>
    simp only [Keys.next_asc, hb, Tree.higher] at h
    intro x hx hax
    simp only [Bound.admitsAbove] at hax
    have := keyMin_eq_none h
    rw [List.filter_eq_nil_iff] at this
    exact this x hx (decide_eq_true hax)

theorem next_desc_eq_none {it : Keys K} (h : it.next_desc = none) :
    ∀ x ∈ it.tree.keys, ¬ it.max.admitsBelow x := by
  cases hb : it.max with
  | unbounded =>
    simp only [Keys.next_desc, hb, Tree.max] at h
    intro x hx
    rw [keyMax_eq_none h] at hx
    simp at hx
  | included b =>
    simp only [Keys.next_desc, hb, Tree.floor_key] at h
    intro x hx hax
    simp only [Bound.admitsBelow] at hax
    have := keyMax_eq_none h
    rw [List.filter_eq_nil_iff] at this
    exact this x hx (decide_eq_true hax)
  | excluded b =>
    simp only [Keys.next_desc, hb, Tree.lower] at h
    intro x hx hax
    simp only [Bound.admitsBelow] at hax
    have := keyMax_eq_none h
    rw [List.filter_eq_nil_iff] at this
    exact this x hx (decide_eq_true hax)

theorem Keys.next_len_zero {it : Keys K} (h : it.length = 0) : it.next = (none, it) := by
  unfold Keys.next
  rw [if_pos h]

theorem Keys.next_back_len_zero {it : Keys K} (h : it.length = 0) :
    it.next_back = (none, it) := by
  unfold Keys.next_back
  rw [if_pos h]

theorem Keys.next_of_asc_some {it : Keys K} {k : K} (h : it.length ≠ 0)
    (hk : it.next_asc = some k) :
    it.next = (some k, { it with min := Bound.excluded k, length := it.length - 1 }) := by
  unfold Keys.next
  rw [if_neg h, hk]

theorem Keys.next_of_asc_none {it : Keys K} (h : it.length ≠ 0) (hk : it.next_asc = none) :
    it.next = (none, { it with length := 0 }) := by
  unfold Keys.next
  rw [if_neg h, hk]

theorem Keys.next_back_of_desc_some {it : Keys K} {k : K} (h : it.length ≠ 0)
    (hk : it.next_desc = some k) :
    it.next_back = (some k, { it with max := Bound.excluded k, length := it.length - 1 }) := by
  unfold Keys.next_back
  rw [if_neg h, hk]

theorem Keys.next_back_of_desc_none {it : Keys K} (h : it.length ≠ 0)
    (hk : it.next_desc = none) :
    it.next_back = (none, { it with length := 0 }) := by
  unfold Keys.next_back
  rw [if_neg h, hk]

theorem Keys.step_tree (it : Keys K) (d : Dir) : ((it.step d).2).tree = it.tree := by
  by_cases h : it.length = 0
  · cases d with
    | fwd => rw [Keys.step, Keys.next_len_zero h]
    | bwd => rw [Keys.step, Keys.next_back_len_zero h]
  · cases d with
    | fwd =>
      cases hk : it.next_asc with
      | none => rw [Keys.step, Keys.next_of_asc_none h hk]
      | some k => rw [Keys.step, Keys.next_of_asc_some h hk]
    | bwd =>
      cases hk : it.next_desc with
      | none => rw [Keys.step, Keys.next_back_of_desc_none h hk]
      | some k => rw [Keys.step, Keys.next_back_of_desc_some h hk]

theorem Keys.step_length_le (it : Keys K) (d : Dir) : ((it.step d).2).length ≤ it.length := by
  by_cases h : it.length = 0
  · cases d with
    | fwd => rw [Keys.step, Keys.next_len_zero h]
    | bwd => rw [Keys.step, Keys.next_back_len_zero h]
  · cases d with
    | fwd =>
      cases hk : it.next_asc with
      | none =>
        rw [Keys.step, Keys.next_of_asc_none h hk]
        exact Nat.zero_le _
      | some k =>
        rw [Keys.step, Keys.next_of_asc_some h hk]
        exact Nat.sub_le _ _
    | bwd =>
      cases hk : it.next_desc with
      | none =>
        rw [Keys.step, Keys.next_back_of_desc_none h hk]
        exact Nat.zero_le _
      | some k =>
        rw [Keys.step, Keys.next_back_of_desc_some h hk]
        exact Nat.sub_le _ _

theorem Keys.step_yield {it : Keys K} {d : Dir} {k : K} (h : (it.step d).1 = some k) :
    it.length ≠ 0 ∧ ((it.step d).2).length + 1 = it.length := by
  by_cases h0 : it.length = 0
  · exfalso
    cases d with
    | fwd => rw [Keys.step, Keys.next_len_zero h0] at h; exact Option.noConfusion h
    | bwd => rw [Keys.step, Keys.next_back_len_zero h0] at h; exact Option.noConfusion h
  · refine ⟨h0, ?_⟩
    cases d with
    | fwd =>
      cases hk : it.next_asc with
      | none => rw [Keys.step, Keys.next_of_asc_none h0 hk] at h; exact Option.noConfusion h
      | some k2 =>
        rw [Keys.step, Keys.next_of_asc_some h0 hk]
        exact Nat.succ_pred_eq_of_pos (Nat.pos_of_ne_zero h0)
    | bwd =>
      cases hk : it.next_desc with
      | none => rw [Keys.step, Keys.next_back_of_desc_none h0 hk] at h; exact Option.noConfusion h
      | some k2 =>
        rw [Keys.step, Keys.next_back_of_desc_some h0 hk]
        exact Nat.succ_pred_eq_of_pos (Nat.pos_of_ne_zero h0)

theorem Keys.run_length_le : ∀ (ds : List Dir) (it : Keys K), ((it.run ds).1).length ≤ it.length := by
  intro ds
  induction ds with
  | nil => intro it; simp [Keys.run]
  | cons d ds ih =>
    intro it
    simp only [Keys.run]
    cases hk : (it.step d).1 with
    | none =>
      simp only [Option.toList, List.nil_append, List.length_nil]
      calc ((((it.step d).2).run ds).1).length ≤ ((it.step d).2).length := ih _
        _ ≤ it.length := Keys.step_length_le it d
    | some k =>
      simp only [Option.toList, List.singleton_append, List.length_cons]
      have hy := Keys.step_yield hk
      have := ih ((it.step d).2)
      omega

theorem Keys.run_drained {it : Keys K} (h : it.length = 0) :
    ∀ ds : List Dir, it.run ds = ([], it) := by
  intro ds
  induction ds with
  | nil => rfl
  | cons d ds ih =>
    have hstep : it.step d = (none, it) := by
      cases d with
      | fwd => exact Keys.next_len_zero h
      | bwd => exact Keys.next_back_len_zero h
    simp only [Keys.run, hstep, ih, Option.toList, List.nil_append]

end NearTreeMap

namespace NearTreeMap

variable {K V : Type} [LinearOrder K]

/-- C1: the claim says the iterator over `(Included(3), Excluded(9))` on a
map with keys `{1,3,5,7,9}` forward-yields exactly `3, 5, 7` and then
nothing.  The code disagrees: `next_asc` resolves the candidate from the
`min` bound alone and never checks the `max` bound, so the fourth forward
call yields `9`, which `Excluded(9)` should have excluded; five forward
calls yield `3, 5, 7, 9`. -/
theorem c1_forward_run_ignores_upper_bound :
    (cursor39.run [Dir.fwd, Dir.fwd, Dir.fwd, Dir.fwd, Dir.fwd]).1 = [3, 5, 7, 9] := by
  decide

/-- C2: the claim says `next(), next_back(), next(), next_back()` on the
same range yields `3, 7, 5` and then nothing, with no duplicate.  The code
disagrees: neither step checks the opposite bound, and `length` starts at
the full tree size `5`, so the fourth call re-yields `5` — a duplicate. -/
theorem c2_interleaved_run_duplicates :
    (cursor39.run [Dir.fwd, Dir.bwd, Dir.fwd, Dir.bwd]).1 = [3, 7, 5, 5] := by
  decide

/-- C3: the claim says `len()` of the `(Included(3), Excluded(9))` iterator
over keys `{1,3,5,7,9}` equals `3` before any step.  The code disagrees:
`Keys::new` initializes `length` to `tree.nodes.len()` — the full tree
size, ignoring the bounds — so `size_hint`, `len` and `count` all report
`5`. -/
theorem c3_initial_len_is_tree_size :
    cursor39.size_hint = (5, some 5) ∧ cursor39.count = 5 ∧
      cursor39.length = tree13579.nodesLen := by
  decide

/-- C4: with nonzero `length`, a forward step yields `tree.min()` /
`ceil_key(b)` / `higher(b)` according to the `min` bound kind and then
tightens `min` to `Excluded` of the yielded key; a backward step
symmetrically resolves `tree.max()` / `floor_key(b)` / `lower(b)` from the
`max` bound and tightens `max` to `Excluded` of the yielded key. -/
theorem c4_step_resolves_bound_and_tightens (it : Keys K) (h : it.length ≠ 0) :
    (it.next.1 = (match it.min with
      | Bound.unbounded => it.tree.min
      | Bound.included b => it.tree.ceil_key b
      | Bound.excluded b => it.tree.higher b))
    ∧ (∀ k : K, it.next.1 = some k → (it.next.2).min = Bound.excluded k)
    ∧ (it.next_back.1 = (match it.max with
      | Bound.unbounded => it.tree.max
      | Bound.included b => it.tree.floor_key b
      | Bound.excluded b => it.tree.lower b))
    ∧ (∀ k : K, it.next_back.1 = some k → (it.next_back.2).max = Bound.excluded k) := by
  have hasc : it.next.1 = it.next_asc := by
    cases hk : it.next_asc with
    | none => rw [Keys.next_of_asc_none h hk]
    | some k => rw [Keys.next_of_asc_some h hk]
  have hdesc : it.next_back.1 = it.next_desc := by
    cases hk : it.next_desc with
    | none => rw [Keys.next_back_of_desc_none h hk]
    | some k => rw [Keys.next_back_of_desc_some h hk]
  refine ⟨hasc, ?_, hdesc, ?_⟩
  · intro k hk
    have hk2 : it.next_asc = some k := hasc.symm.trans hk
    rw [Keys.next_of_asc_some h hk2]
  · intro k hk
    have hk2 : it.next_desc = some k := hdesc.symm.trans hk
    rw [Keys.next_back_of_desc_some h hk2]

/-- Witness for C4 at the concrete range cursor of the spec's example. -/
theorem c4_witness :
    cursor39.next.1 = some 3 ∧ cursor39.next_back.1 = some 7 := by
  have h := c4_step_resolves_bound_and_tightens cursor39 (by decide)
  exact ⟨h.1.trans (by decide), h.2.2.1.trans (by decide)⟩

/-- C5: along any sequence of `next()` / `next_back()` calls, `length`
never increases and decreases by exactly one per yielded element, so it
bounds from above the number of elements any future call sequence can
still yield; `min` changes only to `Excluded` of a key yielded by a
forward step, `max` only to `Excluded` of a key yielded by a backward
step, and each such change only tightens the set of admitted keys. -/
theorem c5_length_monotone_bounds_tighten (it : Keys K) (d : Dir) (ds : List Dir) :
    ((it.step d).2.length ≤ it.length)
    ∧ (∀ k : K, (it.step d).1 = some k → (it.step d).2.length + 1 = it.length)
    ∧ ((it.run ds).1.length ≤ it.length)
    ∧ ((it.step d).2.min ≠ it.min →
        d = Dir.fwd ∧ ∃ k : K, (it.step d).1 = some k ∧ (it.step d).2.min = Bound.excluded k)
    ∧ ((it.step d).2.max ≠ it.max →
        d = Dir.bwd ∧ ∃ k : K, (it.step d).1 = some k ∧ (it.step d).2.max = Bound.excluded k)
    ∧ (∀ x : K, (it.step d).2.min.admitsAbove x → it.min.admitsAbove x)
    ∧ (∀ x : K, (it.step d).2.max.admitsBelow x → it.max.admitsBelow x) := by
  refine ⟨Keys.step_length_le it d, fun k hk => (Keys.step_yield hk).2,
    Keys.run_length_le ds it, ?_, ?_, ?_, ?_⟩
  all_goals by_cases h0 : it.length = 0
  case pos =>
    have : it.step d = (none, it) := by
      cases d with
      | fwd => exact Keys.next_len_zero h0
      | bwd => exact Keys.next_back_len_zero h0
    rw [this]
    intro hne
    exact absurd rfl hne
  case pos =>
    have : it.step d = (none, it) := by
      cases d with
      | fwd => exact Keys.next_len_zero h0
      | bwd => exact Keys.next_back_len_zero h0
    rw [this]
    intro hne
    exact absurd rfl hne
  case pos =>
    have : it.step d = (none, it) := by
      cases d with
      | fwd => exact Keys.next_len_zero h0
      | bwd => exact Keys.next_back_len_zero h0
    rw [this]
    exact fun x hx => hx
  case pos =>
    have : it.step d = (none, it) := by
      cases d with
      | fwd => exact Keys.next_len_zero h0
      | bwd => exact Keys.next_back_len_zero h0
    rw [this]
    exact fun x hx => hx
  case neg =>
    cases d with
    | fwd =>
      cases hk : it.next_asc with
      | none =>
        rw [Keys.step, Keys.next_of_asc_none h0 hk]
        intro hne
        exact absurd rfl hne
      | some k =>
        rw [Keys.step, Keys.next_of_asc_some h0 hk]
        intro _
        exact ⟨rfl, k, rfl, rfl⟩
    | bwd =>
      cases hk : it.next_desc with
      | none =>
        rw [Keys.step, Keys.next_back_of_desc_none h0 hk]
        intro hne
        exact absurd rfl hne
      | some k =>
        rw [Keys.step, Keys.next_back_of_desc_some h0 hk]
        intro hne
        exact absurd rfl hne
  case neg =>
    cases d with
    | fwd =>
      cases hk : it.next_asc with
      | none =>
        rw [Keys.step, Keys.next_of_asc_none h0 hk]
        intro hne
        exact absurd rfl hne
      | some k =>
        rw [Keys.step, Keys.next_of_asc_some h0 hk]
        intro hne
        exact absurd rfl hne
    | bwd =>
      cases hk : it.next_desc with
      | none =>
        rw [Keys.step, Keys.next_back_of_desc_none h0 hk]
        intro hne
        exact absurd rfl hne
      | some k =>
        rw [Keys.step, Keys.next_back_of_desc_some h0 hk]
        intro _
        exact ⟨rfl, k, rfl, rfl⟩
  case neg =>
    cases d with
    | fwd =>
      cases hk : it.next_asc with
      | none =>
        rw [Keys.step, Keys.next_of_asc_none h0 hk]
        exact fun x hx => hx
      | some k =>
        rw [Keys.step, Keys.next_of_asc_some h0 hk]
        intro x hx
        have hspec := next_asc_spec hk
        simp only [Bound.admitsAbove] at hx
        exact admitsAbove_mono hspec.2.1 (le_of_lt hx)
    | bwd =>
      cases hk : it.next_desc with
      | none =>
        rw [Keys.step, Keys.next_back_of_desc_none h0 hk]
        exact fun x hx => hx
      | some k =>
        rw [Keys.step, Keys.next_back_of_desc_some h0 hk]
        exact fun x hx => hx
  case neg =>
    cases d with
    | fwd =>
      cases hk : it.next_asc with
      | none =>
        rw [Keys.step, Keys.next_of_asc_none h0 hk]
        exact fun x hx => hx
      | some k =>
        rw [Keys.step, Keys.next_of_asc_some h0 hk]
        exact fun x hx => hx
    | bwd =>
      cases hk : it.next_desc with
      | none =>
        rw [Keys.step, Keys.next_back_of_desc_none h0 hk]
        exact fun x hx => hx
      | some k =>
        rw [Keys.step, Keys.next_back_of_desc_some h0 hk]
        intro x hx
        have hspec := next_desc_spec hk
        simp only [Bound.admitsBelow] at hx
        exact admitsBelow_mono hspec.2.1 (le_of_lt hx)

/-- Witness for C5 at the concrete range cursor of the spec's example. -/
theorem c5_witness :
    (cursor39.step Dir.fwd).2.length ≤ cursor39.length
    ∧ (cursor39.run [Dir.fwd, Dir.bwd]).1.length ≤ cursor39.length := by
  have h := c5_length_monotone_bounds_tighten cursor39 Dir.fwd [Dir.fwd, Dir.bwd]
  exact ⟨h.1, h.2.2.1⟩

/-- C6: a step that finds no candidate while `length` is nonzero yields
nothing and forces `length` to `0`; with `length = 0` both `next()` and
`next_back()` return `None` and leave the cursor untouched (for every
tree, hence without consulting the tree), so a drained cursor yields
nothing along any further call sequence and never resumes. -/
theorem c6_exhaustion_fuses (it : Keys K) (ds : List Dir) :
    (it.length ≠ 0 → it.next_asc = none → it.next = (none, { it with length := 0 }))
    ∧ (it.length ≠ 0 → it.next_desc = none → it.next_back = (none, { it with length := 0 }))
    ∧ (it.length = 0 → it.next = (none, it) ∧ it.next_back = (none, it))
    ∧ (it.length = 0 → (it.run ds).1 = [] ∧ (it.run ds).2 = it) := by
  refine ⟨fun h hk => Keys.next_of_asc_none h hk,
    fun h hk => Keys.next_back_of_desc_none h hk,
    fun h => ⟨Keys.next_len_zero h, Keys.next_back_len_zero h⟩,
    fun h => ?_⟩
  rw [Keys.run_drained h ds]
  exact ⟨rfl, rfl⟩

/-- Witness for C6: a stuck nonempty cursor whose candidate query fails,
and the cursor over the empty tree, which starts drained. -/
theorem c6_witness :
    cursorStuck.next = (none, { cursorStuck with length := 0 })
    ∧ (Keys.new_unbounded (⟨[]⟩ : Tree Nat)).next
        = (none, Keys.new_unbounded (⟨[]⟩ : Tree Nat)) := by
  refine ⟨(c6_exhaustion_fuses cursorStuck []).1 (by decide) (by decide), ?_⟩
  exact ((c6_exhaustion_fuses (Keys.new_unbounded (⟨[]⟩ : Tree Nat)) []).2.2.1 (by decide)).1

end NearTreeMap

namespace NearTreeMap

variable {K V : Type} [LinearOrder K]

theorem mem_remaining {it : Keys K} {x : K} :
    x ∈ it.remaining ↔
      x ∈ it.tree.keys ∧ it.min.admitsAbove x ∧ it.max.admitsBelow x := by
  simp [Keys.remaining, List.mem_filter]

theorem remaining_nodup {it : Keys K} (h : it.tree.keys.Nodup) : it.remaining.Nodup :=
  h.filter _

theorem filter_lt_length {l : List K} {k : K} (hnd : l.Nodup) (hk : k ∈ l)
    (hmin : ∀ x ∈ l, k ≤ x) :
    (l.filter (fun x => decide (k < x))).length + 1 = l.length := by
  induction l with
  | nil => simp at hk
  | cons a as ih =>
    rw [List.nodup_cons] at hnd
    rw [List.filter_cons]
    rcases List.mem_cons.mp hk with h1 | h1
    · rw [if_neg (by simp [h1])]
      have hfe : as.filter (fun x => decide (k < x)) = as := by
        rw [List.filter_eq_self]
        intro x hx
        have h2 : k ≤ x := hmin x (List.mem_cons_of_mem a hx)
        have h3 : x ≠ k := fun he => hnd.1 (h1 ▸ he ▸ hx)
        simp [lt_of_le_of_ne h2 (Ne.symm h3)]
      rw [hfe]
      simp
    · have hka : k < a :=
        lt_of_le_of_ne (hmin a (by simp)) (fun he => hnd.1 (he ▸ h1))
      rw [if_pos (by simp [hka])]
      have := ih hnd.2 h1 (fun x hx => hmin x (List.mem_cons_of_mem a hx))
      simp only [List.length_cons]
      omega

theorem filter_gt_length {l : List K} {k : K} (hnd : l.Nodup) (hk : k ∈ l)
    (hmax : ∀ x ∈ l, x ≤ k) :
    (l.filter (fun x => decide (x < k))).length + 1 = l.length := by
  induction l with
  | nil => simp at hk
  | cons a as ih =>
    rw [List.nodup_cons] at hnd
    rw [List.filter_cons]
    rcases List.mem_cons.mp hk with h1 | h1
    · rw [if_neg (by simp [h1])]
      have hfe : as.filter (fun x => decide (x < k)) = as := by
        rw [List.filter_eq_self]
        intro x hx
        have h2 : x ≤ k := hmax x (List.mem_cons_of_mem a hx)
        have h3 : x ≠ k := fun he => hnd.1 (h1 ▸ he ▸ hx)
        simp [lt_of_le_of_ne h2 h3]
      rw [hfe]
      simp
    · have hka : a < k :=
        lt_of_le_of_ne (hmax a (by simp)) (fun he => hnd.1 (he ▸ h1))
      rw [if_pos (by simp [hka])]
      have := ih hnd.2 h1 (fun x hx => hmax x (List.mem_cons_of_mem a hx))
      simp only [List.length_cons]
      omega

theorem remaining_ne_nil {it : Keys K} (hInv : it.Inv) (h0 : it.length ≠ 0) :
    ∃ x, x ∈ it.remaining := by
  apply List.exists_mem_of_ne_nil
  intro he
  rw [hInv.2, he] at h0
  simp at h0

theorem step_fwd_yield_spec {it : Keys K} (hInv : it.Inv) (h0 : it.length ≠ 0) :
    ∃ k : K, it.next_asc = some k ∧ k ∈ it.remaining ∧ (∀ x ∈ it.remaining, k ≤ x) := by
  obtain ⟨x0, hx0⟩ := remaining_ne_nil hInv h0
  rw [mem_remaining] at hx0
  cases hk : it.next_asc with
  | none => exact absurd hx0.2.1 (next_asc_eq_none hk x0 hx0.1)
  | some k =>
    have hspec := next_asc_spec hk
    have hmin : ∀ x ∈ it.remaining, k ≤ x := by
      intro x hx
      rw [mem_remaining] at hx
      exact hspec.2.2 x hx.1 hx.2.1
    have hbelow : it.max.admitsBelow k :=
      admitsBelow_mono hx0.2.2 (hspec.2.2 x0 hx0.1 hx0.2.1)
    exact ⟨k, rfl, mem_remaining.mpr ⟨hspec.1, hspec.2.1, hbelow⟩, hmin⟩

theorem step_bwd_yield_spec {it : Keys K} (hInv : it.Inv) (h0 : it.length ≠ 0) :
    ∃ k : K, it.next_desc = some k ∧ k ∈ it.remaining ∧ (∀ x ∈ it.remaining, x ≤ k) := by
  obtain ⟨x0, hx0⟩ := remaining_ne_nil hInv h0
  rw [mem_remaining] at hx0
  cases hk : it.next_desc with
  | none => exact absurd hx0.2.2 (next_desc_eq_none hk x0 hx0.1)
  | some k =>
    have hspec := next_desc_spec hk
    have hmax : ∀ x ∈ it.remaining, x ≤ k := by
      intro x hx
      rw [mem_remaining] at hx
      exact hspec.2.2 x hx.1 hx.2.2
    have habove : it.min.admitsAbove k :=
      admitsAbove_mono hx0.2.1 (hspec.2.2 x0 hx0.1 hx0.2.2)
    exact ⟨k, rfl, mem_remaining.mpr ⟨hspec.1, habove, hspec.2.1⟩, hmax⟩

theorem remaining_after_fwd {it : Keys K} {k : K} (hk : it.next_asc = some k) :
    ({ it with min := Bound.excluded k, length := it.length - 1 } : Keys K).remaining
      = it.remaining.filter (fun x => decide (k < x)) := by
  have hspec := next_asc_spec hk
  simp only [Keys.remaining, List.filter_filter]
  apply List.filter_congr
  intro a _
  by_cases hQ : k < a
  · have hA : it.min.admitsAbove a := admitsAbove_mono hspec.2.1 (le_of_lt hQ)
    have h1 : (Bound.excluded k).admitsAbove a := hQ
    simp [h1, hQ, hA]
  · have h1 : ¬ (Bound.excluded k).admitsAbove a := hQ
    simp [h1, hQ]

theorem remaining_after_bwd {it : Keys K} {k : K} (hk : it.next_desc = some k) :
    ({ it with max := Bound.excluded k, length := it.length - 1 } : Keys K).remaining
      = it.remaining.filter (fun x => decide (x < k)) := by
  have hspec := next_desc_spec hk
  simp only [Keys.remaining, List.filter_filter]
  apply List.filter_congr
  intro a _
  by_cases hQ : a < k
  · have hB : it.max.admitsBelow a := admitsBelow_mono hspec.2.1 (le_of_lt hQ)
    have h1 : (Bound.excluded k).admitsBelow a := hQ
    simp [h1, hQ, hB]
  · have h1 : ¬ (Bound.excluded k).admitsBelow a := hQ
    simp [h1, hQ]

theorem Keys.step_inv {it : Keys K} (hInv : it.Inv) (d : Dir) :
    ((it.step d).2).Inv
    ∧ (∀ x ∈ ((it.step d).2).remaining, x ∈ it.remaining)
    ∧ (∀ k : K, (it.step d).1 = some k → k ∈ it.remaining ∧ k ∉ ((it.step d).2).remaining) := by
  by_cases h0 : it.length = 0
  · have hs : it.step d = (none, it) := by
      cases d with
      | fwd => exact Keys.next_len_zero h0
      | bwd => exact Keys.next_back_len_zero h0
    rw [hs]
    exact ⟨hInv, fun x hx => hx, fun k hk => Option.noConfusion hk⟩
  · cases d with
    | fwd =>
      obtain ⟨k, hk, hkmem, hkmin⟩ := step_fwd_yield_spec hInv h0
      rw [Keys.step, Keys.next_of_asc_some h0 hk]
      dsimp only
      have hrem := remaining_after_fwd hk
      have hlen := filter_lt_length (remaining_nodup hInv.1) hkmem hkmin
      refine ⟨⟨hInv.1, ?_⟩, ?_, ?_⟩
      · show it.length - 1
          = ({ it with min := Bound.excluded k, length := it.length - 1 } : Keys K).remaining.length
        rw [hrem]
        rw [hInv.2] at h0 ⊢
        omega
      · intro x hx
        rw [hrem, List.mem_filter] at hx
        exact hx.1
      · intro k2 hk2
        have hkk : k = k2 := by
          simpa using hk2
        subst hkk
        rw [hrem]
        refine ⟨hkmem, fun hmem => ?_⟩
        rw [List.mem_filter] at hmem
        simp at hmem
    | bwd =>
      obtain ⟨k, hk, hkmem, hkmax⟩ := step_bwd_yield_spec hInv h0
      rw [Keys.step, Keys.next_back_of_desc_some h0 hk]
      dsimp only
      have hrem := remaining_after_bwd hk
      have hlen := filter_gt_length (remaining_nodup hInv.1) hkmem hkmax
      refine ⟨⟨hInv.1, ?_⟩, ?_, ?_⟩
      · show it.length - 1
          = ({ it with max := Bound.excluded k, length := it.length - 1 } : Keys K).remaining.length
        rw [hrem]
        rw [hInv.2] at h0 ⊢
        omega
      · intro x hx
        rw [hrem, List.mem_filter] at hx
        exact hx.1
      · intro k2 hk2
        have hkk : k = k2 := by
          simpa using hk2
        subst hkk
        rw [hrem]
        refine ⟨hkmem, fun hmem => ?_⟩
        rw [List.mem_filter] at hmem
        simp at hmem

end NearTreeMap

namespace NearTreeMap

variable {K V : Type} [LinearOrder K]

theorem Keys.run_inv : ∀ (ds : List Dir) (it : Keys K), it.Inv →
    ((it.run ds).1).Nodup
    ∧ (∀ x ∈ (it.run ds).1, x ∈ it.remaining)
    ∧ ((it.run ds).2).Inv := by
  intro ds
  induction ds with
  | nil =>
    intro it hInv
    exact ⟨List.nodup_nil, fun x hx => absurd hx (List.not_mem_nil x), hInv⟩
  | cons d ds ih =>
    intro it hInv
    have hs := Keys.step_inv hInv d
    have hrec := ih ((it.step d).2) hs.1
    simp only [Keys.run]
    cases hk : (it.step d).1 with
    | none =>
      simp only [Option.toList, List.nil_append]
      exact ⟨hrec.1, fun x hx => hs.2.1 x (hrec.2.1 x hx), hrec.2.2⟩
    | some k =>
      simp only [Option.toList, List.singleton_append]
      have hks := hs.2.2 k hk
      refine ⟨List.nodup_cons.mpr ⟨?_, hrec.1⟩, ?_, hrec.2.2⟩
      · intro hmem
        exact hks.2 (hrec.2.1 k hmem)
      · intro x hx
        rcases List.mem_cons.mp hx with h1 | h1
        · rw [h1]; exact hks.1
        · exact hs.2.1 x (hrec.2.1 x h1)

theorem Keys.new_unbounded_inv {t : Tree K} (h : t.keys.Nodup) :
    (Keys.new_unbounded t).Inv := by
  refine ⟨h, ?_⟩
  have : (Keys.new_unbounded t).remaining = t.keys := by
    simp [Keys.new_unbounded, Keys.new, Keys.remaining, Bound.admitsAbove, Bound.admitsBelow]
  rw [this]
  rfl

/-- C8: the cursor underlying `IterMut` / `ValuesMut` is always created by
`Keys::new_unbounded`, whose counter starts at the exact key count; along
any interleaving of `next()` and `next_back()` calls over a tree with
distinct keys, the yielded keys are pairwise distinct, so
`get_entry_mut` hands out at most one (mutable) value reference per key
during one iteration pass, validating its safety assertion. -/
theorem c8_itermut_keys_pairwise_distinct (m : TreeMap K V) (hnd : m.tree.keys.Nodup)
    (ds : List Dir) :
    ((((IterMut.new m).keys).run ds).1).Nodup
    ∧ ((((ValuesMut.new m).inner.keys).run ds).1).Nodup := by
  have h := Keys.run_inv ds (Keys.new_unbounded m.tree) (Keys.new_unbounded_inv hnd)
  exact ⟨h.1, h.1⟩

/-- Witness for C8 on the concrete five-key tree with an interleaved call
sequence. -/
theorem c8_witness :
    ((((IterMut.new ({ tree := tree13579, values := ⟨fun _ => none⟩ } : TreeMap Nat Nat)).keys).run
        [Dir.fwd, Dir.bwd, Dir.fwd, Dir.bwd, Dir.fwd, Dir.bwd]).1).Nodup :=
  (c8_itermut_keys_pairwise_distinct
    ({ tree := tree13579, values := ⟨fun _ => none⟩ } : TreeMap Nat Nat)
    (by decide) [Dir.fwd, Dir.bwd, Dir.fwd, Dir.bwd, Dir.fwd, Dir.bwd]).1

end NearTreeMap

namespace NearTreeMap

variable {K V : Type} [LinearOrder K]

theorem Keys.next_yield_mem {it : Keys K} {k : K} (h : it.next.1 = some k) :
    k ∈ it.tree.keys := by
  by_cases h0 : it.length = 0
  · rw [Keys.next_len_zero h0] at h
    exact Option.noConfusion h
  · cases hk : it.next_asc with
    | none =>
      rw [Keys.next_of_asc_none h0 hk] at h
      exact Option.noConfusion h
    | some k2 =>
      rw [Keys.next_of_asc_some h0 hk] at h
      have hke : k2 = k := by simpa using h
      exact hke ▸ (next_asc_spec hk).1

theorem Iter.nth_unfold (it : Iter K V) (n : Nat) :
    it.nth n
      = ((match (it.keys.nth n).1 with
          | none => Except.ok none
          | some k =>
            match it.values.get k with
            | none => Except.error ()
            | some v => Except.ok (some (k, v))),
        { it with keys := (it.keys.nth n).2 }) := by
  simp only [Iter.nth]
  cases hk : (it.keys.nth n).1 with
  | none => rfl
  | some k =>
    cases hv : it.values.get k with
    | none => simp [hv, expect]
    | some v => simp [hv, expect]

theorem Iter.nth_back_unfold (it : Iter K V) (n : Nat) :
    it.nth_back n
      = ((match (it.keys.nth_back n).1 with
          | none => Except.ok none
          | some k =>
            match it.values.get k with
            | none => Except.error ()
            | some v => Except.ok (some (k, v))),
        { it with keys := (it.keys.nth_back n).2 }) := by
  simp only [Iter.nth_back]
  cases hk : (it.keys.nth_back n).1 with
  | none => rfl
  | some k =>
    cases hv : it.values.get k with
    | none => simp [hv, expect]
    | some v => simp [hv, expect]

theorem IterMut.nth_unfold_mut (it : IterMut K V) (n : Nat) :
    it.nth n
      = ((match (it.keys.nth n).1 with
          | none => Except.ok none
          | some k =>
            match it.values.get k with
            | none => Except.error ()
            | some v => Except.ok (some (k, v))),
        { it with keys := (it.keys.nth n).2 }) := by
  simp only [IterMut.nth, IterMut.get_entry_mut]
  cases hk : (it.keys.nth n).1 with
  | none => rfl
  | some k =>
    cases hv : it.values.get k with
    | none => simp [hv, expect]
    | some v => simp [hv, expect]

theorem IterMut.nth_back_unfold_mut (it : IterMut K V) (n : Nat) :
    it.nth_back n
      = ((match (it.keys.nth_back n).1 with
          | none => Except.ok none
          | some k =>
            match it.values.get k with
            | none => Except.error ()
            | some v => Except.ok (some (k, v))),
        { it with keys := (it.keys.nth_back n).2 }) := by
  simp only [IterMut.nth_back, IterMut.get_entry_mut]
  cases hk : (it.keys.nth_back n).1 with
  | none => rfl
  | some k =>
    cases hv : it.values.get k with
    | none => simp [hv, expect]
    | some v => simp [hv, expect]

/-- C7: whenever the key cursor yields a key whose value entry is missing,
`Iter` (and `IterMut`) aborts fatally instead of silently skipping the
key; under the precondition that every key present in the tree has a value
entry, that abort branch is unreachable and the yielded pair is the key
together with its stored value. -/
theorem c7_missing_value_is_fatal (it : Iter K V) (itm : IterMut K V) :
    (∀ k : K, (it.keys.next).1 = some k → it.values.get k = none →
        (it.next).1 = Except.error ())
    ∧ ((∀ x ∈ it.keys.tree.keys, (it.values.get x).isSome = true) →
        ∀ k : K, (it.keys.next).1 = some k →
          ∃ v : V, it.values.get k = some v ∧ (it.next).1 = Except.ok (some (k, v)))
    ∧ (∀ k : K, (itm.keys.next).1 = some k → itm.values.get k = none →
        (itm.next).1 = Except.error ())
    ∧ ((∀ x ∈ itm.keys.tree.keys, (itm.values.get x).isSome = true) →
        ∀ k : K, (itm.keys.next).1 = some k →
          ∃ v : V, itm.values.get k = some v ∧ (itm.next).1 = Except.ok (some (k, v))) := by
  have hn : it.keys.nth 0 = it.keys.next := rfl
  have hnm : itm.keys.nth 0 = itm.keys.next := rfl
  refine ⟨?_, ?_, ?_, ?_⟩
  · intro k hk hv
    show (it.nth 0).1 = Except.error ()
    simp [Iter.nth_unfold, hn, hk, hv]
  · intro hall k hk
    have hmem : k ∈ it.keys.tree.keys := Keys.next_yield_mem hk
    obtain ⟨v, hv⟩ := Option.isSome_iff_exists.mp (hall k hmem)
    refine ⟨v, hv, ?_⟩
    show (it.nth 0).1 = Except.ok (some (k, v))
    simp [Iter.nth_unfold, hn, hk, hv]
  · intro k hk hv
    show (itm.nth 0).1 = Except.error ()
    simp [IterMut.nth_unfold_mut, hnm, hk, hv]
  · intro hall k hk
    have hmem : k ∈ itm.keys.tree.keys := Keys.next_yield_mem hk
    obtain ⟨v, hv⟩ := Option.isSome_iff_exists.mp (hall k hmem)
    refine ⟨v, hv, ?_⟩
    show (itm.nth 0).1 = Except.ok (some (k, v))
    simp [IterMut.nth_unfold_mut, hnm, hk, hv]

/-- Witness for C7: a one-key tree with its value entry missing aborts;
with the entry present, the pair is yielded. -/
theorem c7_witness :
    (iterMissing.next).1 = Except.error ()
    ∧ ∃ v : Nat, iterPresent.values.get 1 = some v
        ∧ (iterPresent.next).1 = Except.ok (some (1, v)) := by
  constructor
  · exact (c7_missing_value_is_fatal iterMissing
      ({ keys := iterMissing.keys, values := iterMissing.values } : IterMut Nat Nat)).1
      1 (by decide) rfl
  · exact (c7_missing_value_is_fatal iterPresent
      ({ keys := iterPresent.keys, values := iterPresent.values } : IterMut Nat Nat)).2.1
      (by decide) 1 (by decide)

end NearTreeMap

namespace NearTreeMap

variable {K V : Type} [LinearOrder K]

theorem Keys.run_tree : ∀ (ds : List Dir) (it : Keys K), ((it.run ds).2).tree = it.tree := by
  intro ds
  induction ds with
  | nil => intro it; rfl
  | cons d ds ih =>
    intro it
    show ((((it.step d).2).run ds).2).tree = it.tree
    exact (ih _).trans (Keys.step_tree it d)

theorem Keys.nth_tree : ∀ (n : Nat) (it : Keys K), ((it.nth n).2).tree = it.tree := by
  intro n
  induction n with
  | zero => intro it; exact Keys.step_tree it Dir.fwd
  | succ n ih =>
    intro it
    have ht : (it.next.2).tree = it.tree := Keys.step_tree it Dir.fwd
    rw [Keys.nth]
    cases hk : it.next with
    | mk r it2 =>
      rw [hk] at ht
      cases r with
      | some k => exact (ih it2).trans ht
      | none => exact ht

theorem Keys.nth_back_tree : ∀ (n : Nat) (it : Keys K), ((it.nth_back n).2).tree = it.tree := by
  intro n
  induction n with
  | zero => intro it; exact Keys.step_tree it Dir.bwd
  | succ n ih =>
    intro it
    have ht : (it.next_back.2).tree = it.tree := Keys.step_tree it Dir.bwd
    rw [Keys.nth_back]
    cases hk : it.next_back with
    | mk r it2 =>
      rw [hk] at ht
      cases r with
      | some k => exact (ih it2).trans ht
      | none => exact ht

/-- C9: `Iter`, `IterMut`, `Values` and `ValuesMut` advance the same
`Keys` cursor in lockstep: over the same cursor and value layer, the n-th
forward (resp. backward) item of `Iter` is the n-th key yielded by `Keys`
paired with one value-layer lookup of that key, `IterMut` produces the
same item and cursor state, and `Values` / `ValuesMut` produce exactly
the value component of the `Iter` / `IterMut` item. -/
theorem c9_wrappers_advance_same_cursor (ks : Keys K) (vm : LookupMap K V) (n : Nat) :
    ((Iter.mk ks vm).nth n
      = ((match (ks.nth n).1 with
          | none => Except.ok none
          | some k =>
            match vm.get k with
            | none => Except.error ()
            | some v => Except.ok (some (k, v))),
        Iter.mk (ks.nth n).2 vm))
    ∧ (((IterMut.mk ks vm).nth n).1 = ((Iter.mk ks vm).nth n).1)
    ∧ (((IterMut.mk ks vm).nth n).2.keys = (ks.nth n).2)
    ∧ (((Values.mk (Iter.mk ks vm)).nth n).1
        = ((Iter.mk ks vm).nth n).1.map (Option.map Prod.snd))
    ∧ (((ValuesMut.mk (IterMut.mk ks vm)).nth n).1
        = ((IterMut.mk ks vm).nth n).1.map (Option.map Prod.snd))
    ∧ ((Iter.mk ks vm).nth_back n
      = ((match (ks.nth_back n).1 with
          | none => Except.ok none
          | some k =>
            match vm.get k with
            | none => Except.error ()
            | some v => Except.ok (some (k, v))),
        Iter.mk (ks.nth_back n).2 vm))
    ∧ (((IterMut.mk ks vm).nth_back n).1 = ((Iter.mk ks vm).nth_back n).1)
    ∧ (((IterMut.mk ks vm).nth_back n).2.keys = (ks.nth_back n).2)
    ∧ (((Values.mk (Iter.mk ks vm)).nth_back n).1
        = ((Iter.mk ks vm).nth_back n).1.map (Option.map Prod.snd))
    ∧ (((ValuesMut.mk (IterMut.mk ks vm)).nth_back n).1
        = ((IterMut.mk ks vm).nth_back n).1.map (Option.map Prod.snd)) := by
  refine ⟨Iter.nth_unfold (Iter.mk ks vm) n, ?_, ?_, rfl, rfl,
    Iter.nth_back_unfold (Iter.mk ks vm) n, ?_, ?_, rfl, rfl⟩
  · rw [IterMut.nth_unfold_mut, Iter.nth_unfold]
  · rw [IterMut.nth_unfold_mut]
  · rw [IterMut.nth_back_unfold_mut, Iter.nth_back_unfold]
  · rw [IterMut.nth_back_unfold_mut]

/-- C10: advancing the read-only iterators never mutates the map: any
sequence of `Keys` steps, and any `nth` / `nth_back` call, leaves the
tree untouched, and `Iter` / `Values` advancement leaves both the tree
and the value layer untouched (`size_hint` and `count` return plain
values and produce no new state at all). -/
theorem c10_read_iteration_is_pure (it : Keys K) (ds : List Dir) (n : Nat) (iv : Iter K V) :
    ((it.run ds).2.tree = it.tree)
    ∧ ((it.nth n).2.tree = it.tree)
    ∧ ((it.nth_back n).2.tree = it.tree)
    ∧ ((iv.nth n).2.values = iv.values ∧ (iv.nth n).2.keys.tree = iv.keys.tree)
    ∧ ((iv.nth_back n).2.values = iv.values ∧ (iv.nth_back n).2.keys.tree = iv.keys.tree)
    ∧ (((Values.mk iv).nth n).2.inner.values = iv.values
        ∧ ((Values.mk iv).nth n).2.inner.keys.tree = iv.keys.tree)
    ∧ (((Values.mk iv).nth_back n).2.inner.values = iv.values
        ∧ ((Values.mk iv).nth_back n).2.inner.keys.tree = iv.keys.tree) := by
  have hfi : (iv.nth n).2 = { iv with keys := (iv.keys.nth n).2 } := by
    rw [Iter.nth_unfold]
  have hbi : (iv.nth_back n).2 = { iv with keys := (iv.keys.nth_back n).2 } := by
    rw [Iter.nth_back_unfold]
  refine ⟨Keys.run_tree ds it, Keys.nth_tree n it, Keys.nth_back_tree n it,
    ⟨?_, ?_⟩, ⟨?_, ?_⟩, ⟨?_, ?_⟩, ⟨?_, ?_⟩⟩
  · rw [hfi]
  · rw [hfi]
    exact Keys.nth_tree n iv.keys
  · rw [hbi]
  · rw [hbi]
    exact Keys.nth_back_tree n iv.keys
  · show (iv.nth n).2.values = iv.values
    rw [hfi]
  · show (iv.nth n).2.keys.tree = iv.keys.tree
    rw [hfi]
    exact Keys.nth_tree n iv.keys
  · show (iv.nth_back n).2.values = iv.values
    rw [hbi]
  · show (iv.nth_back n).2.keys.tree = iv.keys.tree
    rw [hbi]
    exact Keys.nth_back_tree n iv.keys

end NearTreeMap
